import Mathlib

/-!
Verification development for the concurrent data-structure library:
Michael–Scott FIFO queues (src/structures/atomic_queue.rs,
src/structures/lockfreequeue.rs), the Harris–Michael ordered lock-free set
(src/structures/lock_free_link_list.rs), the MCS-locked bucketed hash map
(src/structures/lock_free_hash.rs) and the MCS queue lock
(src/structures/mcs_lock.rs).

The embedding is the sequential collapse of the Rust code: a single thread
runs one complete operation at a time, so a CAS succeeds exactly when the
location still holds the expected value — which also makes some CASes fail
deterministically (the ordered set's unlink CAS at a head match expects the
node itself in its own next field) and one retry loop spin forever.
Pointer-linked heaps are embedded as Lean lists of node records, in chain
order starting from the head pointer; a null pointer is the empty tail of
the list, and deferred destruction (defer_destroy / guard.defer) is
modelled by moving the node to an explicit retired list.
-/

set_option autoImplicit false

namespace Seize

/-! ## Michael–Scott queue, from src/structures/atomic_queue.rs.

A queue is its chain of nodes from `head`: the first list entry is the
sentinel node `head` points to, and each entry is the node's `value: Option<T>`
slot.  `new()` allocates one sentinel with value `None`. -/

namespace AtomicQueue

/-- Chain created by `AtomicQueue::new()`: a single sentinel node with no
value, with `head` and `tail` both pointing at it. -/
def newq {α : Type} : List (Option α) := [none]

/-- `enqueue(v)` (lines 26-47): allocates a node with `value = Some v`,
links it after the last node (the `t.next` CAS succeeds sequentially since
`tail.next` is null), then swings `tail`. -/
def enqueue {α : Type} (q : List (Option α)) (v : α) : List (Option α) :=
  q ++ [some v]

/-- `dequeue()` (lines 49-69).  The chain is never empty (the sentinel is
always present); the `[]` case is the unreachable null-head default.
With one node, `head == tail` and `head.next` is null: return `None`,
leaving the queue untouched.  Otherwise take the value out of `head.next`,
CAS `head` forward (the taken slot's node becomes the new sentinel) and
free the old sentinel. -/
def dequeue {α : Type} : List (Option α) → Option α × List (Option α)
  | [] => (none, [])
  | [x] => (none, [x])
  | _x :: y :: rest => (y, none :: rest)

/-- Run `n` successive dequeues, collecting the returned options. -/
def dequeueN {α : Type} : Nat → List (Option α) → List (Option α) × List (Option α)
  | 0, q => ([], q)
  | n + 1, q =>
    ((dequeue q).1 :: (dequeueN n (dequeue q).2).1, (dequeueN n (dequeue q).2).2)

/-- Enqueue a whole sequence, one call per element, left to right. -/
def enqueueAll {α : Type} (q : List (Option α)) (s : List α) : List (Option α) :=
  s.foldl enqueue q

/-- `impl Drop for AtomicQueue` (lines 72-79): dequeue until `None` (each
successful dequeue frees the old sentinel), then free the remaining dummy
node.  Returns (number of nodes freed, chain left allocated). -/
def dropQueue {α : Type} : List (Option α) → Nat × List (Option α)
  | [] => (0, [])
  | [_x] => (1, [])
  | _x :: _y :: rest => ((dropQueue (none :: rest)).1 + 1, (dropQueue (none :: rest)).2)
termination_by q => q.length
decreasing_by simp

end AtomicQueue

/-! ## The second Michael–Scott queue, from src/structures/lockfreequeue.rs.

Sequentially it collapses to the same chain transformations as
`AtomicQueue`: the only differences are memory orderings and that
`dequeue` swings `head` before taking the value out of the new sentinel
(lines 57-78), which reads the same slot.  Crucially, lockfreequeue.rs
declares NO `Drop` impl: dropping the struct drops two raw `AtomicPtr`
fields, which frees no node. -/

namespace LockFreeQueue

/-- `LockFreeQueue::new()` (lines 15-24): one valueless sentinel. -/
def newq {α : Type} : List (Option α) := [none]

/-- `enqueue(v)` (lines 26-55): same sequential chain edit as
`AtomicQueue::enqueue`. -/
def enqueue {α : Type} (q : List (Option α)) (v : α) : List (Option α) :=
  q ++ [some v]

/-- `dequeue()` (lines 57-78): on `head == tail` with null next return
`None`; otherwise CAS `head` to `next`, take `next.value`, free old head. -/
def dequeue {α : Type} : List (Option α) → Option α × List (Option α)
  | [] => (none, [])
  | [x] => (none, [x])
  | _x :: y :: rest => (y, none :: rest)

/-- Run `n` successive dequeues, collecting the returned options. -/
def dequeueN {α : Type} : Nat → List (Option α) → List (Option α) × List (Option α)
  | 0, q => ([], q)
  | n + 1, q =>
    ((dequeue q).1 :: (dequeueN n (dequeue q).2).1, (dequeueN n (dequeue q).2).2)

/-- Enqueue a whole sequence, one call per element, left to right. -/
def enqueueAll {α : Type} (q : List (Option α)) (s : List α) : List (Option α) :=
  s.foldl enqueue q

/-- lockfreequeue.rs defines no destructor for `LockFreeQueue`: destroying
the struct runs the default drop of its two `AtomicPtr` fields, so zero
nodes are freed and the whole chain (sentinel included) stays allocated. -/
def dropQueue {α : Type} (q : List (Option α)) : Nat × List (Option α) :=
  (0, q)

end LockFreeQueue

/-! ## Ordered lock-free set, from src/structures/lock_free_link_list.rs.

A list state is the chain of nodes reachable from `head` plus the nodes
handed to the epoch guard for deferred destruction (`guard.defer` /
`defer_destroy`).  `find` initializes `prev = curr = head` (lines 41-42),
which drives the sequential behaviour everywhere below: a stop at the first
node reports a non-null `prev == curr`, so the head-position CAS of
`insert` (on `curr.next`, expecting `curr`) fails deterministically and the
head-position unlink of `remove` never happens, and after `find` unlinks a
marked head its `prev` stays at the retired node, so later unlink CASes of
that walk edit a dead branch. -/

namespace LockFreeList

/-- `Node<T>` (lines 4-9): `value`, `marked: AtomicBool`,
`version: AtomicUsize`; `next` is the chain link, represented by list
order.  `Node::new` (lines 15-22) starts unmarked with version 0. -/
structure Node (α : Type) where
  value : α
  marked : Bool
  version : Nat
deriving DecidableEq

/-- The set: the reachable chain from `head` (lines 25-27) together with
the nodes retired to the reclamation service. -/
structure ListState (α : Type) where
  nodes : List (Node α)
  retired : List (Node α)
deriving DecidableEq

/-- `LockFreeList::new()` (lines 31-35): null head, nothing retired. -/
def newList {α : Type} : ListState α := ⟨[], []⟩

/-- Where the `prev` of `find` points when `find` returns.  `find`
(lines 41-42) starts with `prev = curr = head`, so `prev` is null only when
the chain was empty; a stop at the very first node returns `prev == curr`
(`self`); after the marked head is unlinked, `prev` stays at the retired
ex-head (`stale`) until an unmarked node with value below `v` is passed,
from which point `prev` is a reachable predecessor (`live`). -/
inductive PrevKind where
  | null
  | self
  | live
  | stale
deriving DecidableEq

/-- Result of one `find` call: the nodes handed to `guard.defer` during the
walk, the post-call reachable chain split at `curr` (the chain is
`before ++ after`, with `curr` the head of `after`, or null when
`after = []`), and what the returned `prev` points to. -/
structure FindOut (α : Type) where
  retired : List (Node α)
  before : List (Node α)
  after : List (Node α)
  prev : PrevKind
deriving DecidableEq

/-- The walk of `find` (lines 44-86) beyond the first node, with `st`
recording whether `prev` is stale (the retired ex-head).  A marked node met
while `prev` is stale is "unlinked" by the CAS on the retired node's `next`
(lines 59-66): the CAS succeeds but edits only the dead branch, so the node
is retired (lines 70-72) while remaining on the reachable chain — it stays
in `before`.  A marked node met with a live `prev` is spliced out of the
chain for real.  Passing an unmarked node with value `< v` (lines 84-85)
makes that reachable node the new `prev`, ending staleness.  An unmarked
node with `value ≥ v` stops the walk (lines 80-82). -/
def findWalk {α : Type} [LinearOrder α] (v : α) : Bool → List (Node α) → FindOut α
  | st, [] => ⟨[], [], [], if st then .stale else .live⟩
  | st, c :: rest =>
    if c.marked then
      if st then
        ⟨c :: (findWalk v true rest).retired, c :: (findWalk v true rest).before,
         (findWalk v true rest).after, (findWalk v true rest).prev⟩
      else
        ⟨c :: (findWalk v false rest).retired, (findWalk v false rest).before,
         (findWalk v false rest).after, (findWalk v false rest).prev⟩
    else if v ≤ c.value then
      ⟨[], [], c :: rest, if st then .stale else .live⟩
    else
      ⟨(findWalk v false rest).retired, c :: (findWalk v false rest).before,
       (findWalk v false rest).after, (findWalk v false rest).prev⟩

/-- `find(v)` (lines 39-90) in the sequential collapse.  `prev` and `curr`
both start at the loaded head (lines 41-42), so an empty chain returns a
null `prev` and null `curr`.  A marked head is unlinked by the head CAS
(`prev == curr`, lines 48-56) and retired, and the walk continues with the
now-stale `prev`; an unmarked head with `value ≥ v` returns immediately
with `prev == curr` (`self`); otherwise the head is passed and the walk
continues with a live `prev`.  The outer restart loop (line 40) is never
entered again sequentially: every unlink CAS of a single-threaded run
succeeds. -/
def find {α : Type} [LinearOrder α] (v : α) : List (Node α) → FindOut α
  | [] => ⟨[], [], [], .null⟩
  | c :: rest =>
    if c.marked then
      ⟨c :: (findWalk v true rest).retired, (findWalk v true rest).before,
       (findWalk v true rest).after, (findWalk v true rest).prev⟩
    else if v ≤ c.value then
      ⟨[], [], c :: rest, .self⟩
    else
      ⟨(findWalk v false rest).retired, c :: (findWalk v false rest).before,
       (findWalk v false rest).after, (findWalk v false rest).prev⟩

/-- `insert(value)` (lines 91-136).  After `find`, a non-null unmarked
`curr` equal to `value` returns false before any CAS (lines 99-104).
Otherwise the new node is linked by CAS (lines 106-126): with a null `prev`
the head CAS succeeds on the empty chain; with a live `prev` the
`prev.next` CAS succeeds and the node becomes reachable in front of `curr`;
with a stale `prev` the CAS succeeds on the retired ex-head's `next`,
publishing the node into the dead branch — insert returns true but the
reachable chain is unchanged; with `prev == curr` (`self`, an unmarked head
that did not match) the CAS on `curr.next` expects `curr` itself, fails
deterministically, and the `Err` arm retries against the unchanged state
forever — the call never returns, `none` here.  (The combinations
`self` with empty `after` and `null` with non-empty `after` are never
produced by `find`; they are given the CAS-success semantics of the
corresponding code branch.) -/
def insert {α : Type} [LinearOrder α] (s : ListState α) (v : α) :
    Option (Bool × ListState α) :=
  match (find v s.nodes).after with
  | c :: a =>
    if c.value = v ∧ c.marked = false then
      some (false, ⟨(find v s.nodes).before ++ c :: a,
                    s.retired ++ (find v s.nodes).retired⟩)
    else
      match (find v s.nodes).prev with
      | .self => none
      | .stale =>
        some (true, ⟨(find v s.nodes).before ++ c :: a,
                     s.retired ++ (find v s.nodes).retired⟩)
      | .live =>
        some (true, ⟨(find v s.nodes).before ++ ⟨v, false, 0⟩ :: c :: a,
                     s.retired ++ (find v s.nodes).retired⟩)
      | .null =>
        some (true, ⟨(find v s.nodes).before ++ ⟨v, false, 0⟩ :: c :: a,
                     s.retired ++ (find v s.nodes).retired⟩)
  | [] =>
    match (find v s.nodes).prev with
    | .self => none
    | .stale =>
      some (true, ⟨(find v s.nodes).before, s.retired ++ (find v s.nodes).retired⟩)
    | .live =>
      some (true, ⟨(find v s.nodes).before ++ [⟨v, false, 0⟩],
                   s.retired ++ (find v s.nodes).retired⟩)
    | .null =>
      some (true, ⟨(find v s.nodes).before ++ [⟨v, false, 0⟩],
                   s.retired ++ (find v s.nodes).retired⟩)

/-- `remove(value)` (lines 138-190).  A null, mismatched, or marked `curr`
returns false (lines 143-151).  Otherwise the mark CAS succeeds and the
version is bumped (lines 156-160) — both visible on the node.  The physical
unlink (lines 163-180) then depends on `prev`: a live `prev` splices `curr`
out and defer-destroys it (line 184); with `prev == curr` (a match at the
head position) the CAS on `curr.next` expects `curr` itself and always
fails, so the marked node stays in the chain and is NOT retired; with a
stale `prev` the CAS succeeds on the dead branch, so the marked node is
retired while remaining reachable from head.  True is returned in all three
cases (line 187). -/
def remove {α : Type} [LinearOrder α] (s : ListState α) (v : α) : Bool × ListState α :=
  match (find v s.nodes).after with
  | [] => (false, ⟨(find v s.nodes).before, s.retired ++ (find v s.nodes).retired⟩)
  | c :: a =>
    if c.value ≠ v ∨ c.marked = true then
      (false, ⟨(find v s.nodes).before ++ c :: a,
               s.retired ++ (find v s.nodes).retired⟩)
    else
      match (find v s.nodes).prev with
      | .self =>
        (true, ⟨(find v s.nodes).before ++ ⟨c.value, true, c.version + 1⟩ :: a,
                s.retired ++ (find v s.nodes).retired⟩)
      | .live =>
        (true, ⟨(find v s.nodes).before ++ a,
                (s.retired ++ (find v s.nodes).retired) ++
                  [⟨c.value, true, c.version + 1⟩]⟩)
      | .stale =>
        (true, ⟨(find v s.nodes).before ++ ⟨c.value, true, c.version + 1⟩ :: a,
                (s.retired ++ (find v s.nodes).retired) ++
                  [⟨c.value, true, c.version + 1⟩]⟩)
      | .null =>
        (false, ⟨(find v s.nodes).before ++ c :: a,
                 s.retired ++ (find v s.nodes).retired⟩)

/-- `contains(value)` (lines 192-203): run `find`, then test that `curr` is
non-null, unmarked, and holds `value`. -/
def contains {α : Type} [LinearOrder α] (s : ListState α) (v : α) : Bool × ListState α :=
  match (find v s.nodes).after with
  | [] => (false, ⟨(find v s.nodes).before, s.retired ++ (find v s.nodes).retired⟩)
  | c :: a =>
    ((!c.marked && decide (c.value = v)),
     ⟨(find v s.nodes).before ++ c :: a, s.retired ++ (find v s.nodes).retired⟩)

/-- Live (unmarked) nodes of a chain, in chain order. -/
def liveFilter {α : Type} (l : List (Node α)) : List (Node α) :=
  l.filter (fun n => !n.marked)

/-- Values of the live nodes of a chain, in chain order. -/
def liveValues {α : Type} (l : List (Node α)) : List α :=
  (liveFilter l).map Node.value

/-- The sorted-list invariant: adjacent live reachable nodes strictly
increase in value. -/
def SortedLive {α : Type} [LinearOrder α] (s : ListState α) : Prop :=
  List.Chain' (fun a b => a < b) (liveValues s.nodes)

/-- One user-level call on the ordered set. -/
inductive Op (α : Type) where
  | ins (v : α)
  | rem (v : α)
  | con (v : α)

/-- State transformer of one call; an `insert` that never returns yields
`none`, and the remainder of the sequence never runs. -/
def runOp {α : Type} [LinearOrder α] (s : ListState α) : Op α → Option (ListState α)
  | .ins v => Option.map Prod.snd (insert s v)
  | .rem v => some (remove s v).2
  | .con v => some (contains s v).2

/-- Run a call sequence against a freshly created set; `none` when some call
of the sequence never returns. -/
def runOps {α : Type} [LinearOrder α] (ops : List (Op α)) : Option (ListState α) :=
  List.foldlM runOp newList ops

/-! ### Node allocation accounting for one `insert` call (claim C4).

`insert` allocates `Node::new(&value)` before the loop (line 93); each loop
iteration converts the owned node into a shared pointer (`into_shared`,
line 107) and attempts the linkage CAS.  On `Ok` the node is published
(line 129).  On `Err` the code allocates a replacement,
`new_node = Node::new(&value)` (line 131); the shared node of the failed
attempt is neither freed nor published.  `insertLoop k` runs the loop with
`k` interference-induced CAS failures before the success. -/

structure InsertAlloc where
  allocated : Nat
  published : Nat
  freed : Nat
deriving DecidableEq

/-- Nodes leaked by a call: allocated but neither published nor freed. -/
def InsertAlloc.leaked (a : InsertAlloc) : Nat := a.allocated - a.published - a.freed

/-- The linkage-CAS loop of `insert` (lines 95-135), counting allocation
events: `0` remaining failures means the CAS succeeds and publishes the
node; a failure allocates a fresh node and retries, freeing nothing. -/
def insertLoop : Nat → InsertAlloc → InsertAlloc
  | 0, acc => ⟨acc.allocated, acc.published + 1, acc.freed⟩
  | k + 1, acc => insertLoop k ⟨acc.allocated + 1, acc.published, acc.freed⟩

/-- A whole `insert` call whose linkage CAS fails `k` times before
succeeding: one allocation up front (line 93), then the loop. -/
def insertCall (k : Nat) : InsertAlloc := insertLoop k ⟨1, 0, 0⟩

end LockFreeList

/-! ## Bucketed hash map, from src/structures/lock_free_hash.rs.

Each of the `NUM_BUCKETS` buckets holds an MCS lock and the head of a
singly-linked `HashNode` chain; a bucket is embedded as the list of
`(key, value)` pairs in chain order, newest first.  Every operation runs
entirely inside its bucket's MCS lock, so the sequential collapse is the
per-bucket chain edit between `lock` and `unlock`.  The randomized
`RandomState` hasher is abstracted as an arbitrary function `h : κ → Nat`
finalized by `% NUM_BUCKETS` (`bucket_index`, lines 76-84). -/

namespace LockFreeHashMap

/-- `NUM_BUCKETS` (line 12). -/
def NUM_BUCKETS : Nat := 256

/-- The bucket array (line 38): chain contents per bucket index. -/
structure HashMap (κ ν : Type) where
  buckets : Fin NUM_BUCKETS → List (κ × ν)

/-- `bucket_index` (lines 76-84): hash, then modulo the bucket count. -/
def bucket_index {κ : Type} (h : κ → Nat) (k : κ) : Fin NUM_BUCKETS :=
  ⟨h k % NUM_BUCKETS, Nat.mod_lt _ (by decide)⟩

/-- `new` / `with_hasher` (lines 48-73): every bucket chain starts null. -/
def empty {κ ν : Type} : HashMap κ ν := ⟨fun _ => []⟩

/-- `insert(key, value)` (lines 87-108): under the bucket lock, push a new
node at the head of the chain; no duplicate check. -/
def insert {κ ν : Type} (h : κ → Nat) (m : HashMap κ ν) (k : κ) (v : ν) :
    HashMap κ ν :=
  ⟨Function.update m.buckets (bucket_index h k)
    ((k, v) :: m.buckets (bucket_index h k))⟩

/-- The chain walk of `get` (lines 129-138): first node with matching key
wins; its value is cloned. -/
def findInChain {κ ν : Type} [DecidableEq κ] (k : κ) : List (κ × ν) → Option ν
  | [] => none
  | p :: rest => if p.1 = k then some p.2 else findInChain k rest

/-- `get(key)` (lines 111-144): walk the chain of the key's bucket under
the bucket lock. -/
def get {κ ν : Type} [DecidableEq κ] (h : κ → Nat) (m : HashMap κ ν) (k : κ) :
    Option ν :=
  findInChain k (m.buckets (bucket_index h k))

/-- The chain walk of `remove` (lines 164-181): on the first key match,
splice the node out (store `next` through the kept pointer-to-pointer),
return its cloned value and free the node; otherwise keep walking. -/
def removeFromChain {κ ν : Type} [DecidableEq κ] (k : κ) :
    List (κ × ν) → Option ν × List (κ × ν)
  | [] => (none, [])
  | p :: rest =>
    if p.1 = k then (some p.2, rest)
    else ((removeFromChain k rest).1, p :: (removeFromChain k rest).2)

/-- `remove(key)` (lines 147-187): run the chain walk of the key's bucket
under the bucket lock. -/
def remove {κ ν : Type} [DecidableEq κ] (h : κ → Nat) (m : HashMap κ ν) (k : κ) :
    Option ν × HashMap κ ν :=
  ((removeFromChain k (m.buckets (bucket_index h k))).1,
   ⟨Function.update m.buckets (bucket_index h k)
      (removeFromChain k (m.buckets (bucket_index h k))).2⟩)

end LockFreeHashMap

/-! ## MCS queue lock, from src/structures/mcs_lock.rs.

Nodes live at caller-owned addresses, embedded as a heap `Nat → MCSNode`;
null pointers are `none`.  The sequential collapse resolves the uncontended
paths; a path that must spin for another thread (a non-null predecessor in
`lock`, or the wait-for-successor path in `unlock`) cannot terminate with a
single thread and is returned as `none`.  The global CAS-failure CSV
counters (lines 93-127) are touched only on that unreachable path and are
not part of the lock state. -/

namespace MCSLock

/-- `MCSNode` (lines 17-30): successor pointer and spin flag;
`MCSNode::new()` starts with null next and `locked = true`. -/
structure MCSNode where
  next : Option Nat
  locked : Bool
deriving DecidableEq

/-- `MCSNode::new()` (lines 24-29). -/
def MCSNode.new : MCSNode := ⟨none, true⟩

/-- The lock (`tail`, lines 33-35) together with the heap of caller-owned
MCS nodes. -/
structure MCSState where
  tail : Option Nat
  nodes : Nat → MCSNode

/-- `lock(node)` (lines 46-56): store `node.next ← null`, swap `tail` to
the node, obtaining predecessor `prev`.  If `prev` is null the lock is
held and the call returns at once (no spin).  Otherwise the caller links
itself behind `prev` and spins on `node.locked` — unreachable under a
single thread, hence `none`. -/
def lock (s : MCSState) (nid : Nat) : Option MCSState :=
  match s.tail with
  | none => some ⟨some nid, Function.update s.nodes nid ⟨none, (s.nodes nid).locked⟩⟩
  | some _p => none

/-- `unlock(node)` (lines 59-90): load `node.next`; if null, CAS `tail`
from the node to null — on success the lock is free and the call returns;
on failure it would bump a CSV counter and spin for the linking successor
(`none` here).  A non-null `next` hands the lock off by clearing the
successor's `locked` flag. -/
def unlock (s : MCSState) (nid : Nat) : Option MCSState :=
  match (s.nodes nid).next with
  | none => if s.tail = some nid then some ⟨none, s.nodes⟩ else none
  | some nxt =>
    some ⟨s.tail, Function.update s.nodes nxt ⟨(s.nodes nxt).next, false⟩⟩

end MCSLock

/-! ## Lemmas and claim theorems -/

lemma AtomicQueue.enqueueAll_eq {α : Type} (s : List α) :
    ∀ q : List (Option α), AtomicQueue.enqueueAll q s = q ++ s.map some := by
  induction s with
  | nil => intro q; simp [AtomicQueue.enqueueAll]
  | cons v s ih =>
    intro q
    simpa [AtomicQueue.enqueueAll, AtomicQueue.enqueue] using ih (q ++ [some v])

lemma AtomicQueue.dequeueN_sentinel {α : Type} (s : List α) :
    AtomicQueue.dequeueN s.length ((none : Option α) :: s.map some) =
      (s.map some, [none]) := by
  induction s with
  | nil => simp [AtomicQueue.dequeueN]
  | cons v s ih => simp [AtomicQueue.dequeueN, AtomicQueue.dequeue, ih]

lemma LockFreeQueue.dequeue_eq {α : Type} (q : List (Option α)) :
    LockFreeQueue.dequeue q = AtomicQueue.dequeue q := by
  match q with
  | [] => rfl
  | [x] => rfl
  | _ :: _ :: _ => rfl

lemma LockFreeQueue.dequeueN_eq {α : Type} (n : Nat) (q : List (Option α)) :
    LockFreeQueue.dequeueN n q = AtomicQueue.dequeueN n q := by
  induction n generalizing q with
  | zero => rfl
  | succ n ih =>
    simp [LockFreeQueue.dequeueN, AtomicQueue.dequeueN, LockFreeQueue.dequeue_eq, ih]

lemma LockFreeQueue.enqueueAll_eq_atomic {α : Type} (s : List α) (q : List (Option α)) :
    LockFreeQueue.enqueueAll q s = AtomicQueue.enqueueAll q s := rfl

/-- Claim C1: on a freshly created queue, enqueueing the sequence `S` and then
dequeuing `|S|` times returns exactly the elements of `S` in FIFO order (and
leaves just the sentinel); a dequeue on an empty queue (chain = one sentinel,
i.e. head = tail with null next) returns `none` without modifying the queue.
Both queue implementations (atomic_queue.rs and lockfreequeue.rs) satisfy
this; there is no error condition (both operations are total). -/
theorem claim_C1_queue_fifo {α : Type} (S : List α) :
    (AtomicQueue.dequeueN S.length (AtomicQueue.enqueueAll AtomicQueue.newq S) =
       (S.map some, [none]) ∧
     ∀ x : Option α, AtomicQueue.dequeue [x] = (none, [x])) ∧
    (LockFreeQueue.dequeueN S.length (LockFreeQueue.enqueueAll LockFreeQueue.newq S) =
       (S.map some, [none]) ∧
     ∀ x : Option α, LockFreeQueue.dequeue [x] = (none, [x])) := by
  have h1 : AtomicQueue.dequeueN S.length
      (AtomicQueue.enqueueAll AtomicQueue.newq S) = (S.map some, [none]) := by
    rw [AtomicQueue.enqueueAll_eq]
    simpa [AtomicQueue.newq] using AtomicQueue.dequeueN_sentinel S
  refine ⟨⟨h1, fun x => rfl⟩, ⟨?_, fun x => rfl⟩⟩
  rw [LockFreeQueue.dequeueN_eq, LockFreeQueue.enqueueAll_eq_atomic]
  simpa [LockFreeQueue.newq, AtomicQueue.newq] using h1

lemma AtomicQueue.dropQueue_spec {α : Type} :
    ∀ (n : Nat) (q : List (Option α)), q.length ≤ n →
      AtomicQueue.dropQueue q = (q.length, []) := by
  intro n
  induction n with
  | zero =>
    intro q hq
    match q with
    | [] => simp [AtomicQueue.dropQueue]
  | succ n ih =>
    intro q hq
    match q with
    | [] => simp [AtomicQueue.dropQueue]
    | [x] => simp [AtomicQueue.dropQueue]
    | x :: y :: rest =>
      have := ih (none :: rest) (by simpa using Nat.le_of_succ_le_succ hq)
      simp [AtomicQueue.dropQueue, this]

/-- Claim C9 (amended): destroying an `AtomicQueue` repeatedly dequeues until
empty and then frees the sentinel, freeing every node still linked in the
chain exactly once (the freed count equals the chain length and nothing is
left allocated).  `LockFreeQueue` declares no destructor, so destroying it
frees none of its linked nodes. -/
theorem claim_C9_drop_drains {α : Type} (q : List (Option α)) :
    AtomicQueue.dropQueue q = (q.length, []) ∧
    LockFreeQueue.dropQueue q = (0, q) :=
  ⟨AtomicQueue.dropQueue_spec q.length q le_rfl, rfl⟩

/-- Claim C9, counterexample to the claim as stated: a `LockFreeQueue` holding
its sentinel plus one enqueued value is destroyed without freeing either
linked node (0 nodes freed, both left allocated), contradicting the claim
that destruction drains the queue and frees every linked node exactly once. -/
theorem claim_C9_counterexample :
    (LockFreeQueue.dropQueue [none, some (1 : ℕ)]).1 = 0 ∧
    (LockFreeQueue.dropQueue [none, some (1 : ℕ)]).2 ≠ [] ∧
    [none, some (1 : ℕ)].length = 2 := by
  refine ⟨rfl, by simp [LockFreeQueue.dropQueue], rfl⟩

lemma LockFreeList.insertLoop_spec :
    ∀ (k : Nat) (a : LockFreeList.InsertAlloc),
      LockFreeList.insertLoop k a = ⟨a.allocated + k, a.published + 1, a.freed⟩ := by
  intro k
  induction k with
  | zero => intro a; simp [LockFreeList.insertLoop]
  | succ k ih =>
    intro a
    rw [LockFreeList.insertLoop, ih]
    simp [Nat.add_comm, Nat.add_assoc, Nat.add_left_comm]

/-- Claim C4: the code contradicts the claim that a linkage-CAS failure in
`insert` synchronously frees the never-published node before retrying.  An
insert with `k` CAS failures allocates `k + 1` nodes, publishes exactly one
(the claim's last clause does hold) and frees none, so each failed attempt
leaks one node: at the failing input `k = 1` (one interfering writer), one
node is leaked and zero are freed, where the claim requires one freed and
zero leaked. -/
theorem claim_C4_insert_cas_failure :
    (∀ k : Nat, LockFreeList.insertCall k = ⟨k + 1, 1, 0⟩) ∧
    (LockFreeList.insertCall 1).freed = 0 ∧
    (LockFreeList.insertCall 1).leaked = 1 ∧
    (LockFreeList.insertCall 0).published = 1 := by
  have h : ∀ k : Nat, LockFreeList.insertCall k = ⟨k + 1, 1, 0⟩ := by
    intro k
    rw [LockFreeList.insertCall, LockFreeList.insertLoop_spec]
    simp [Nat.add_comm]
  exact ⟨h, by simp [h, LockFreeList.InsertAlloc.leaked],
    by simp [h, LockFreeList.InsertAlloc.leaked], by simp [h]⟩

lemma LockFreeList.liveValues_append {α : Type} (l₁ l₂ : List (LockFreeList.Node α)) :
    LockFreeList.liveValues (l₁ ++ l₂) =
      LockFreeList.liveValues l₁ ++ LockFreeList.liveValues l₂ := by
  simp [LockFreeList.liveValues, LockFreeList.liveFilter, List.filter_append]

lemma LockFreeList.liveValues_cons_live {α : Type} {c : LockFreeList.Node α}
    (hc : c.marked = false) (l : List (LockFreeList.Node α)) :
    LockFreeList.liveValues (c :: l) = c.value :: LockFreeList.liveValues l := by
  simp [LockFreeList.liveValues, LockFreeList.liveFilter, hc]

lemma LockFreeList.liveValues_cons_marked {α : Type} {c : LockFreeList.Node α}
    (hc : c.marked = true) (l : List (LockFreeList.Node α)) :
    LockFreeList.liveValues (c :: l) = LockFreeList.liveValues l := by
  simp [LockFreeList.liveValues, LockFreeList.liveFilter, hc]

lemma LockFreeList.mem_liveFilter {α : Type} {l : List (LockFreeList.Node α)}
    {n : LockFreeList.Node α} (hn : n ∈ l) (hlive : n.marked = false) :
    n ∈ LockFreeList.liveFilter l := by
  refine List.mem_filter.mpr ⟨hn, ?_⟩
  simp [hlive]

lemma LockFreeList.of_mem_liveFilter {α : Type} {l : List (LockFreeList.Node α)}
    {n : LockFreeList.Node α} (hn : n ∈ LockFreeList.liveFilter l) :
    n ∈ l ∧ n.marked = false := by
  have h := List.mem_filter.mp hn
  refine ⟨h.1, ?_⟩
  simpa using h.2

lemma LockFreeList.findWalk_spec {α : Type} [LinearOrder α] (v : α) :
    ∀ (l : List (LockFreeList.Node α)) (st : Bool),
      (∀ n ∈ (LockFreeList.findWalk v st l).retired, n.marked = true) ∧
      (∀ n ∈ (LockFreeList.findWalk v st l).before,
         n.marked = true ∨ (n.marked = false ∧ n.value < v)) ∧
      (∀ c ∈ (LockFreeList.findWalk v st l).after.head?,
         c.marked = false ∧ v ≤ c.value) ∧
      LockFreeList.liveFilter l =
        LockFreeList.liveFilter (LockFreeList.findWalk v st l).before ++
          LockFreeList.liveFilter (LockFreeList.findWalk v st l).after ∧
      ((LockFreeList.findWalk v st l).before ++
        (LockFreeList.findWalk v st l).after).Sublist l := by
  intro l
  induction l with
  | nil =>
    intro st
    cases st <;>
      simp [LockFreeList.findWalk, LockFreeList.liveFilter]
  | cons c rest ih =>
    intro st
    by_cases hm : c.marked
    · cases st with
      | true =>
        have hz : LockFreeList.findWalk v true (c :: rest) =
            ⟨c :: (LockFreeList.findWalk v true rest).retired,
             c :: (LockFreeList.findWalk v true rest).before,
             (LockFreeList.findWalk v true rest).after,
             (LockFreeList.findWalk v true rest).prev⟩ := by
          simp [LockFreeList.findWalk, hm]
        obtain ⟨ih1, ih2, ih3, ih4, ih5⟩ := ih true
        rw [hz]
        refine ⟨?_, ?_, ih3, ?_, ?_⟩
        · intro n hn
          rcases List.mem_cons.mp hn with h | h
          · rw [h]; exact hm
          · exact ih1 n h
        · intro n hn
          rcases List.mem_cons.mp hn with h | h
          · rw [h]; exact Or.inl hm
          · exact ih2 n h
        · simp only [LockFreeList.liveFilter] at ih4 ⊢
          rw [List.filter_cons_of_neg (by simp [hm]),
            List.filter_cons_of_neg (by simp [hm])]
          exact ih4
        · exact List.Sublist.cons₂ c ih5
      | false =>
        have hz : LockFreeList.findWalk v false (c :: rest) =
            ⟨c :: (LockFreeList.findWalk v false rest).retired,
             (LockFreeList.findWalk v false rest).before,
             (LockFreeList.findWalk v false rest).after,
             (LockFreeList.findWalk v false rest).prev⟩ := by
          simp [LockFreeList.findWalk, hm]
        obtain ⟨ih1, ih2, ih3, ih4, ih5⟩ := ih false
        rw [hz]
        refine ⟨?_, ih2, ih3, ?_, ?_⟩
        · intro n hn
          rcases List.mem_cons.mp hn with h | h
          · rw [h]; exact hm
          · exact ih1 n h
        · simp only [LockFreeList.liveFilter] at ih4 ⊢
          rw [List.filter_cons_of_neg (by simp [hm])]
          exact ih4
        · exact List.Sublist.cons c ih5
    · by_cases hv : v ≤ c.value
      · have hz : LockFreeList.findWalk v st (c :: rest) =
            ⟨[], [], c :: rest, if st then .stale else .live⟩ := by
          cases st <;> simp [LockFreeList.findWalk, hm, hv]
        rw [hz]
        refine ⟨by simp, by simp, ?_, by simp [LockFreeList.liveFilter], by simp⟩
        intro n hn
        simp only [List.head?_cons, Option.mem_def, Option.some_inj] at hn
        rw [← hn]
        exact ⟨Bool.eq_false_iff.mpr hm, hv⟩
      · have hz : LockFreeList.findWalk v st (c :: rest) =
            ⟨(LockFreeList.findWalk v false rest).retired,
             c :: (LockFreeList.findWalk v false rest).before,
             (LockFreeList.findWalk v false rest).after,
             (LockFreeList.findWalk v false rest).prev⟩ := by
          cases st <;> simp [LockFreeList.findWalk, hm, hv]
        obtain ⟨ih1, ih2, ih3, ih4, ih5⟩ := ih false
        rw [hz]
        refine ⟨ih1, ?_, ih3, ?_, ?_⟩
        · intro n hn
          rcases List.mem_cons.mp hn with h | h
          · rw [h]
            exact Or.inr ⟨Bool.eq_false_iff.mpr hm, lt_of_not_le hv⟩
          · exact ih2 n h
        · simp only [LockFreeList.liveFilter] at ih4 ⊢
          rw [List.filter_cons_of_pos (by simp [hm]),
            List.filter_cons_of_pos (by simp [hm]), List.cons_append, ih4]
        · exact List.Sublist.cons₂ c ih5

lemma LockFreeList.find_spec {α : Type} [LinearOrder α] (v : α)
    (l : List (LockFreeList.Node α)) :
    (∀ n ∈ (LockFreeList.find v l).retired, n.marked = true) ∧
    (∀ n ∈ (LockFreeList.find v l).before,
       n.marked = true ∨ (n.marked = false ∧ n.value < v)) ∧
    (∀ c ∈ (LockFreeList.find v l).after.head?,
       c.marked = false ∧ v ≤ c.value) ∧
    LockFreeList.liveFilter l =
      LockFreeList.liveFilter (LockFreeList.find v l).before ++
        LockFreeList.liveFilter (LockFreeList.find v l).after ∧
    ((LockFreeList.find v l).before ++ (LockFreeList.find v l).after).Sublist l := by
  match l with
  | [] => simp [LockFreeList.find, LockFreeList.liveFilter]
  | c :: rest =>
    by_cases hm : c.marked
    · have hz : LockFreeList.find v (c :: rest) =
          ⟨c :: (LockFreeList.findWalk v true rest).retired,
           (LockFreeList.findWalk v true rest).before,
           (LockFreeList.findWalk v true rest).after,
           (LockFreeList.findWalk v true rest).prev⟩ := by
        simp [LockFreeList.find, hm]
      obtain ⟨w1, w2, w3, w4, w5⟩ := LockFreeList.findWalk_spec v rest true
      rw [hz]
      refine ⟨?_, w2, w3, ?_, ?_⟩
      · intro n hn
        rcases List.mem_cons.mp hn with h | h
        · rw [h]; exact hm
        · exact w1 n h
      · simp only [LockFreeList.liveFilter] at w4 ⊢
        rw [List.filter_cons_of_neg (by simp [hm])]
        exact w4
      · exact List.Sublist.cons c w5
    · by_cases hv : v ≤ c.value
      · have hz : LockFreeList.find v (c :: rest) = ⟨[], [], c :: rest, .self⟩ := by
          simp [LockFreeList.find, hm, hv]
        rw [hz]
        refine ⟨by simp, by simp, ?_, by simp [LockFreeList.liveFilter], by simp⟩
        intro n hn
        simp only [List.head?_cons, Option.mem_def, Option.some_inj] at hn
        rw [← hn]
        exact ⟨Bool.eq_false_iff.mpr hm, hv⟩
      · have hz : LockFreeList.find v (c :: rest) =
            ⟨(LockFreeList.findWalk v false rest).retired,
             c :: (LockFreeList.findWalk v false rest).before,
             (LockFreeList.findWalk v false rest).after,
             (LockFreeList.findWalk v false rest).prev⟩ := by
          simp [LockFreeList.find, hm, hv]
        obtain ⟨w1, w2, w3, w4, w5⟩ := LockFreeList.findWalk_spec v rest false
        rw [hz]
        refine ⟨w1, ?_, w3, ?_, ?_⟩
        · intro n hn
          rcases List.mem_cons.mp hn with h | h
          · rw [h]
            exact Or.inr ⟨Bool.eq_false_iff.mpr hm, lt_of_not_le hv⟩
          · exact w2 n h
        · simp only [LockFreeList.liveFilter] at w4 ⊢
          rw [List.filter_cons_of_pos (by simp [hm]),
            List.filter_cons_of_pos (by simp [hm]), List.cons_append, w4]
        · exact List.Sublist.cons₂ c w5

lemma LockFreeList.find_liveValues {α : Type} [LinearOrder α] (v : α)
    (l : List (LockFreeList.Node α)) :
    LockFreeList.liveValues l =
      LockFreeList.liveValues (LockFreeList.find v l).before ++
        LockFreeList.liveValues (LockFreeList.find v l).after := by
  have h := (LockFreeList.find_spec v l).2.2.2.1
  rw [LockFreeList.liveValues, h, List.map_append]
  rfl

lemma LockFreeList.liveValues_before_lt {α : Type} [LinearOrder α] (v : α)
    (l : List (LockFreeList.Node α)) :
    ∀ x ∈ LockFreeList.liveValues (LockFreeList.find v l).before, x < v := by
  intro x hx
  obtain ⟨n, hn, hval⟩ := List.mem_map.mp hx
  obtain ⟨hmem, hlive⟩ := LockFreeList.of_mem_liveFilter hn
  rcases (LockFreeList.find_spec v l).2.1 n hmem with h | h
  · rw [hlive] at h
    exact absurd h (by simp)
  · rw [← hval]
    exact h.2

lemma LockFreeList.before_last_lt {α : Type} [LinearOrder α] (v : α)
    (l : List (LockFreeList.Node α)) :
    ∀ x ∈ (LockFreeList.liveValues (LockFreeList.find v l).before).getLast?, x < v := by
  intro x hx
  obtain ⟨hne, hx'⟩ := List.mem_getLast?_eq_getLast hx
  refine LockFreeList.liveValues_before_lt v l x ?_
  rw [hx']
  exact List.getLast_mem hne

lemma LockFreeList.sorted_parts {α : Type} [LinearOrder α] (v : α)
    {s : LockFreeList.ListState α} (hs : LockFreeList.SortedLive s) :
    List.Chain' (fun a b => a < b)
      (LockFreeList.liveValues (LockFreeList.find v s.nodes).before) ∧
    List.Chain' (fun a b => a < b)
      (LockFreeList.liveValues (LockFreeList.find v s.nodes).after) ∧
    ∀ x ∈ (LockFreeList.liveValues (LockFreeList.find v s.nodes).before).getLast?,
      ∀ y ∈ (LockFreeList.liveValues (LockFreeList.find v s.nodes).after).head?,
        x < y := by
  have h := hs
  rw [LockFreeList.SortedLive, LockFreeList.find_liveValues v] at h
  exact List.chain'_append.mp h

lemma LockFreeList.after_head_mem {α : Type} [LinearOrder α] {v : α}
    {l : List (LockFreeList.Node α)} {c : LockFreeList.Node α}
    {a : List (LockFreeList.Node α)}
    (heq : (LockFreeList.find v l).after = c :: a) : c ∈ l := by
  have h5 := (LockFreeList.find_spec v l).2.2.2.2
  refine h5.subset ?_
  rw [heq]
  simp

lemma LockFreeList.sorted_unchanged {α : Type} [LinearOrder α] (v : α)
    {s : LockFreeList.ListState α} (hs : LockFreeList.SortedLive s) :
    List.Chain' (fun a b => a < b)
      (LockFreeList.liveValues
        ((LockFreeList.find v s.nodes).before ++ (LockFreeList.find v s.nodes).after)) := by
  rw [LockFreeList.liveValues_append, ← LockFreeList.find_liveValues]
  exact hs

lemma LockFreeList.sorted_ins {α : Type} [LinearOrder α] (v : α)
    {s : LockFreeList.ListState α} (hs : LockFreeList.SortedLive s)
    (hgt : ∀ y ∈ (LockFreeList.liveValues (LockFreeList.find v s.nodes).after).head?,
      v < y) :
    List.Chain' (fun a b => a < b)
      (LockFreeList.liveValues ((LockFreeList.find v s.nodes).before ++
        ⟨v, false, 0⟩ :: (LockFreeList.find v s.nodes).after)) := by
  rw [LockFreeList.liveValues_append, LockFreeList.liveValues_cons_live rfl]
  obtain ⟨h1, h2, _h3⟩ := LockFreeList.sorted_parts v hs
  refine List.chain'_append.mpr ⟨h1, List.chain'_cons'.mpr ⟨hgt, h2⟩, ?_⟩
  intro x hx y hy
  simp only [List.head?_cons, Option.mem_def, Option.some_inj] at hy
  rw [← hy]
  exact LockFreeList.before_last_lt v s.nodes x hx

lemma LockFreeList.sorted_rem {α : Type} [LinearOrder α] (v : α)
    {s : LockFreeList.ListState α} (hs : LockFreeList.SortedLive s)
    {c : LockFreeList.Node α} {a : List (LockFreeList.Node α)}
    (heq : (LockFreeList.find v s.nodes).after = c :: a) :
    List.Chain' (fun a b => a < b)
      (LockFreeList.liveValues (LockFreeList.find v s.nodes).before ++
        LockFreeList.liveValues a) := by
  have hc : c.marked = false ∧ v ≤ c.value := by
    refine (LockFreeList.find_spec v s.nodes).2.2.1 c ?_
    rw [heq]; rfl
  obtain ⟨h1, h2, h3⟩ := LockFreeList.sorted_parts v hs
  rw [heq, LockFreeList.liveValues_cons_live hc.1] at h2 h3
  have h2' := (List.chain'_cons'.mp h2).2
  have hcy := (List.chain'_cons'.mp h2).1
  refine List.chain'_append.mpr ⟨h1, h2', ?_⟩
  intro x hx y hy
  have hxc : x < c.value := by
    refine h3 x hx c.value ?_
    simp
  exact lt_trans hxc (hcy y hy)

lemma LockFreeList.insert_SortedLive {α : Type} [LinearOrder α]
    (s : LockFreeList.ListState α) (v : α) (b' : Bool) (s' : LockFreeList.ListState α)
    (h : LockFreeList.insert s v = some (b', s')) (hs : LockFreeList.SortedLive s) :
    LockFreeList.SortedLive s' := by
  rw [LockFreeList.insert] at h
  split at h
  case h_1 c a heq =>
    have hc : c.marked = false ∧ v ≤ c.value := by
      refine (LockFreeList.find_spec v s.nodes).2.2.1 c ?_
      rw [heq]; rfl
    split at h
    case isTrue hcond =>
      simp only [Option.some.injEq, Prod.mk.injEq] at h
      obtain ⟨-, hst⟩ := h
      rw [← hst]
      show List.Chain' (fun a b => a < b)
        (LockFreeList.liveValues ((LockFreeList.find v s.nodes).before ++ c :: a))
      rw [← heq]
      exact LockFreeList.sorted_unchanged v hs
    case isFalse hcond =>
      have hne : c.value ≠ v := fun hh => hcond ⟨hh, hc.1⟩
      have hgt : ∀ y ∈ (LockFreeList.liveValues
          (LockFreeList.find v s.nodes).after).head?, v < y := by
        intro y hy
        rw [heq, LockFreeList.liveValues_cons_live hc.1] at hy
        simp only [List.head?_cons, Option.mem_def, Option.some_inj] at hy
        rw [← hy]
        exact lt_of_le_of_ne hc.2 (fun hh => hne hh.symm)
      split at h
      case h_1 => exact absurd h (by simp)
      case h_2 =>
        simp only [Option.some.injEq, Prod.mk.injEq] at h
        obtain ⟨-, hst⟩ := h
        rw [← hst]
        show List.Chain' (fun a b => a < b)
          (LockFreeList.liveValues ((LockFreeList.find v s.nodes).before ++ c :: a))
        rw [← heq]
        exact LockFreeList.sorted_unchanged v hs
      case h_3 =>
        simp only [Option.some.injEq, Prod.mk.injEq] at h
        obtain ⟨-, hst⟩ := h
        rw [← hst]
        show List.Chain' (fun a b => a < b)
          (LockFreeList.liveValues ((LockFreeList.find v s.nodes).before ++
            ⟨v, false, 0⟩ :: c :: a))
        have hh := LockFreeList.sorted_ins v hs hgt
        rw [heq] at hh
        exact hh
      case h_4 =>
        simp only [Option.some.injEq, Prod.mk.injEq] at h
        obtain ⟨-, hst⟩ := h
        rw [← hst]
        show List.Chain' (fun a b => a < b)
          (LockFreeList.liveValues ((LockFreeList.find v s.nodes).before ++
            ⟨v, false, 0⟩ :: c :: a))
        have hh := LockFreeList.sorted_ins v hs hgt
        rw [heq] at hh
        exact hh
  case h_2 heq =>
    have hgt : ∀ y ∈ (LockFreeList.liveValues
        (LockFreeList.find v s.nodes).after).head?, v < y := by
      rw [heq]
      simp [LockFreeList.liveValues, LockFreeList.liveFilter]
    split at h
    case h_1 => exact absurd h (by simp)
    case h_2 =>
      simp only [Option.some.injEq, Prod.mk.injEq] at h
      obtain ⟨-, hst⟩ := h
      rw [← hst]
      show List.Chain' (fun a b => a < b)
        (LockFreeList.liveValues (LockFreeList.find v s.nodes).before)
      exact (LockFreeList.sorted_parts v hs).1
    case h_3 =>
      simp only [Option.some.injEq, Prod.mk.injEq] at h
      obtain ⟨-, hst⟩ := h
      rw [← hst]
      show List.Chain' (fun a b => a < b)
        (LockFreeList.liveValues ((LockFreeList.find v s.nodes).before ++
          [⟨v, false, 0⟩]))
      have hh := LockFreeList.sorted_ins v hs hgt
      rw [heq] at hh
      exact hh
    case h_4 =>
      simp only [Option.some.injEq, Prod.mk.injEq] at h
      obtain ⟨-, hst⟩ := h
      rw [← hst]
      show List.Chain' (fun a b => a < b)
        (LockFreeList.liveValues ((LockFreeList.find v s.nodes).before ++
          [⟨v, false, 0⟩]))
      have hh := LockFreeList.sorted_ins v hs hgt
      rw [heq] at hh
      exact hh

lemma LockFreeList.remove_SortedLive {α : Type} [LinearOrder α]
    (s : LockFreeList.ListState α) (v : α) (hs : LockFreeList.SortedLive s) :
    LockFreeList.SortedLive (LockFreeList.remove s v).2 := by
  rw [LockFreeList.remove]
  split
  case h_1 heq =>
    show List.Chain' (fun a b => a < b)
      (LockFreeList.liveValues (LockFreeList.find v s.nodes).before)
    exact (LockFreeList.sorted_parts v hs).1
  case h_2 c a heq =>
    split
    case isTrue hcond =>
      show List.Chain' (fun a b => a < b)
        (LockFreeList.liveValues ((LockFreeList.find v s.nodes).before ++ c :: a))
      rw [← heq]
      exact LockFreeList.sorted_unchanged v hs
    case isFalse hcond =>
      have hsr := LockFreeList.sorted_rem v hs heq
      split
      case h_1 =>
        show List.Chain' (fun a b => a < b)
          (LockFreeList.liveValues ((LockFreeList.find v s.nodes).before ++
            ⟨c.value, true, c.version + 1⟩ :: a))
        rw [LockFreeList.liveValues_append, LockFreeList.liveValues_cons_marked rfl]
        exact hsr
      case h_2 =>
        show List.Chain' (fun a b => a < b)
          (LockFreeList.liveValues ((LockFreeList.find v s.nodes).before ++ a))
        rw [LockFreeList.liveValues_append]
        exact hsr
      case h_3 =>
        show List.Chain' (fun a b => a < b)
          (LockFreeList.liveValues ((LockFreeList.find v s.nodes).before ++
            ⟨c.value, true, c.version + 1⟩ :: a))
        rw [LockFreeList.liveValues_append, LockFreeList.liveValues_cons_marked rfl]
        exact hsr
      case h_4 =>
        show List.Chain' (fun a b => a < b)
          (LockFreeList.liveValues ((LockFreeList.find v s.nodes).before ++ c :: a))
        rw [← heq]
        exact LockFreeList.sorted_unchanged v hs

lemma LockFreeList.contains_SortedLive {α : Type} [LinearOrder α]
    (s : LockFreeList.ListState α) (v : α) (hs : LockFreeList.SortedLive s) :
    LockFreeList.SortedLive (LockFreeList.contains s v).2 := by
  rw [LockFreeList.contains]
  split
  case h_1 heq =>
    show List.Chain' (fun a b => a < b)
      (LockFreeList.liveValues (LockFreeList.find v s.nodes).before)
    exact (LockFreeList.sorted_parts v hs).1
  case h_2 c a heq =>
    show List.Chain' (fun a b => a < b)
      (LockFreeList.liveValues ((LockFreeList.find v s.nodes).before ++ c :: a))
    rw [← heq]
    exact LockFreeList.sorted_unchanged v hs

lemma LockFreeList.no_live_of_nonmatch {α : Type} [LinearOrder α] (v : α)
    {s : LockFreeList.ListState α} (hs : LockFreeList.SortedLive s)
    {c : LockFreeList.Node α} {a : List (LockFreeList.Node α)}
    (heq : (LockFreeList.find v s.nodes).after = c :: a) (hne : c.value ≠ v) :
    ¬∃ n ∈ s.nodes, n.marked = false ∧ n.value = v := by
  have hc : c.marked = false ∧ v ≤ c.value := by
    refine (LockFreeList.find_spec v s.nodes).2.2.1 c ?_
    rw [heq]; rfl
  rintro ⟨n, hn, hlive, hval⟩
  have hmem : n ∈ LockFreeList.liveFilter s.nodes := LockFreeList.mem_liveFilter hn hlive
  rw [(LockFreeList.find_spec v s.nodes).2.2.2.1, heq] at hmem
  rcases List.mem_append.mp hmem with hb | ha2
  · obtain ⟨hnb, -⟩ := LockFreeList.of_mem_liveFilter hb
    rcases (LockFreeList.find_spec v s.nodes).2.1 n hnb with hmk | hlt
    · rw [hlive] at hmk
      exact absurd hmk (by simp)
    · rw [hval] at hlt
      exact lt_irrefl v hlt.2
  · have hcons : LockFreeList.liveFilter (c :: a) = c :: LockFreeList.liveFilter a := by
      simp [LockFreeList.liveFilter, hc.1]
    rw [hcons] at ha2
    rcases List.mem_cons.mp ha2 with h | h
    · rw [h] at hval
      exact hne hval
    · have hchain : List.Chain' (fun a b => a < b)
          (c.value :: LockFreeList.liveValues a) := by
        have h2 := (LockFreeList.sorted_parts v hs).2.1
        rw [heq, LockFreeList.liveValues_cons_live hc.1] at h2
        exact h2
      have hpair := (List.chain'_iff_pairwise).mp hchain
      have hval_mem : n.value ∈ LockFreeList.liveValues a :=
        List.mem_map.mpr ⟨n, h, rfl⟩
      have hlt : c.value < n.value := (List.pairwise_cons.mp hpair).1 _ hval_mem
      rw [hval] at hlt
      exact absurd (lt_of_le_of_lt hc.2 hlt) (lt_irrefl v)

lemma LockFreeList.no_live_of_empty {α : Type} [LinearOrder α] (v : α)
    (s : LockFreeList.ListState α)
    (heq : (LockFreeList.find v s.nodes).after = []) :
    ¬∃ n ∈ s.nodes, n.marked = false ∧ n.value = v := by
  rintro ⟨n, hn, hlive, hval⟩
  have hmem : n ∈ LockFreeList.liveFilter s.nodes := LockFreeList.mem_liveFilter hn hlive
  rw [(LockFreeList.find_spec v s.nodes).2.2.2.1, heq] at hmem
  simp only [LockFreeList.liveFilter, List.filter_nil, List.append_nil] at hmem
  obtain ⟨hnb, -⟩ := LockFreeList.of_mem_liveFilter hmem
  rcases (LockFreeList.find_spec v s.nodes).2.1 n hnb with hmk | hlt
  · rw [hlive] at hmk
    exact absurd hmk (by simp)
  · rw [hval] at hlt
    exact lt_irrefl v hlt.2

lemma LockFreeList.insert_false_iff {α : Type} [LinearOrder α]
    (s : LockFreeList.ListState α) (v : α) (hs : LockFreeList.SortedLive s) :
    Option.map Prod.fst (LockFreeList.insert s v) = some false ↔
      ∃ n ∈ s.nodes, n.marked = false ∧ n.value = v := by
  rw [LockFreeList.insert]
  split
  case h_1 c a heq =>
    have hc : c.marked = false ∧ v ≤ c.value := by
      refine (LockFreeList.find_spec v s.nodes).2.2.1 c ?_
      rw [heq]; rfl
    split
    case isTrue hcond =>
      exact iff_of_true (by simp)
        ⟨c, LockFreeList.after_head_mem heq, hc.1, hcond.1⟩
    case isFalse hcond =>
      have hne : c.value ≠ v := fun hh => hcond ⟨hh, hc.1⟩
      have hno := LockFreeList.no_live_of_nonmatch v hs heq hne
      split <;> exact iff_of_false (by simp) hno
  case h_2 heq =>
    have hno := LockFreeList.no_live_of_empty v s heq
    split <;> exact iff_of_false (by simp) hno

lemma LockFreeList.absent_remove_contains {α : Type} [LinearOrder α]
    (s : LockFreeList.ListState α) (v : α)
    (h : ¬∃ n ∈ s.nodes, n.marked = false ∧ n.value = v) :
    (LockFreeList.remove s v).1 = false ∧ (LockFreeList.contains s v).1 = false := by
  constructor
  · rw [LockFreeList.remove]
    split
    case h_1 heq => rfl
    case h_2 c a heq =>
      split
      case isTrue hcond => rfl
      case isFalse hcond =>
        rcases not_or.mp hcond with ⟨h1, h2⟩
        have hcv : c.value = v := not_not.mp h1
        have hmk : c.marked = false := by
          cases hh : c.marked
          · rfl
          · exact absurd hh h2
        exact absurd ⟨c, LockFreeList.after_head_mem heq, hmk, hcv⟩ h
  · rw [LockFreeList.contains]
    split
    case h_1 heq => rfl
    case h_2 c a heq =>
      by_cases hcv : c.value = v
      · by_cases hmk : c.marked
        · simp [hmk]
        · exact absurd
            ⟨c, LockFreeList.after_head_mem heq, Bool.eq_false_iff.mpr hmk, hcv⟩ h
      · simp [hcv]

lemma LockFreeList.runOps_sorted_aux {α : Type} [LinearOrder α] :
    ∀ (ops : List (LockFreeList.Op α)) (s0 : LockFreeList.ListState α),
      LockFreeList.SortedLive s0 →
      ∀ s, List.foldlM LockFreeList.runOp s0 ops = some s →
        LockFreeList.SortedLive s := by
  intro ops
  induction ops with
  | nil =>
    intro s0 h0 s hs
    simp only [List.foldlM_nil, Option.pure_def, Option.some.injEq] at hs
    rw [← hs]
    exact h0
  | cons op ops ih =>
    intro s0 h0 s hs
    rw [List.foldlM_cons] at hs
    cases hop : LockFreeList.runOp s0 op with
    | none =>
      rw [hop] at hs
      exact Option.noConfusion hs
    | some s1 =>
      rw [hop] at hs
      refine ih s1 ?_ s hs
      cases op with
      | ins w =>
        simp only [LockFreeList.runOp, Option.map_eq_some'] at hop
        obtain ⟨p, hp, hps⟩ := hop
        rw [← hps]
        exact LockFreeList.insert_SortedLive s0 w p.1 p.2 hp h0
      | rem w =>
        simp only [LockFreeList.runOp, Option.some.injEq] at hop
        rw [← hop]
        exact LockFreeList.remove_SortedLive s0 w h0
      | con w =>
        simp only [LockFreeList.runOp, Option.some.injEq] at hop
        rw [← hop]
        exact LockFreeList.contains_SortedLive s0 w h0

/-- Claim C2: on a fresh ordered set the call sequence insert(v), insert(v),
contains(&v), remove(&v), contains(&v), remove(&v) returns
true, false, true, true, false, false, with the intermediate states spelled
out as the code leaves them: the second remove call marks the head node in
place (its unlink CAS, whose `prev == curr`, fails, so the marked node stays
in the chain unretired), and the following contains call is what physically
unlinks and retires it.  In general, on any state with sorted live chain,
insert returns false exactly when an unmarked node with value v is
reachable, and remove/contains return false when no such node is present. -/
theorem claim_C2_ordered_set_returns (α : Type) [LinearOrder α] (v : α) :
    (LockFreeList.insert (LockFreeList.newList : LockFreeList.ListState α) v =
        some (true, ⟨[⟨v, false, 0⟩], []⟩) ∧
     LockFreeList.insert (⟨[⟨v, false, 0⟩], []⟩ : LockFreeList.ListState α) v =
        some (false, ⟨[⟨v, false, 0⟩], []⟩) ∧
     (LockFreeList.contains (⟨[⟨v, false, 0⟩], []⟩ : LockFreeList.ListState α) v).1 =
        true ∧
     LockFreeList.remove (⟨[⟨v, false, 0⟩], []⟩ : LockFreeList.ListState α) v =
        (true, ⟨[⟨v, true, 1⟩], []⟩) ∧
     LockFreeList.contains (⟨[⟨v, true, 1⟩], []⟩ : LockFreeList.ListState α) v =
        (false, ⟨[], [⟨v, true, 1⟩]⟩) ∧
     (LockFreeList.remove (⟨[], [⟨v, true, 1⟩]⟩ : LockFreeList.ListState α) v).1 =
        false) ∧
    (∀ s : LockFreeList.ListState α, LockFreeList.SortedLive s →
       (Option.map Prod.fst (LockFreeList.insert s v) = some false ↔
          ∃ n ∈ s.nodes, n.marked = false ∧ n.value = v) ∧
       ((¬∃ n ∈ s.nodes, n.marked = false ∧ n.value = v) →
          (LockFreeList.remove s v).1 = false ∧
          (LockFreeList.contains s v).1 = false)) := by
  constructor
  · refine ⟨?_, ?_, ?_, ?_, ?_, ?_⟩ <;>
      simp [LockFreeList.insert, LockFreeList.remove, LockFreeList.contains,
        LockFreeList.find, LockFreeList.findWalk, LockFreeList.newList]
  · intro s hs
    exact ⟨LockFreeList.insert_false_iff s v hs,
      fun h => LockFreeList.absent_remove_contains s v h⟩

/-- Claim C2, witness: the general clause applied at the fresh list over ℕ
and value 5, with the sortedness hypothesis discharged concretely. -/
theorem claim_C2_witness :
    LockFreeList.SortedLive (LockFreeList.newList : LockFreeList.ListState ℕ) ∧
    ((Option.map Prod.fst
        (LockFreeList.insert (LockFreeList.newList : LockFreeList.ListState ℕ) 5) =
        some false ↔
        ∃ n ∈ (LockFreeList.newList : LockFreeList.ListState ℕ).nodes,
          n.marked = false ∧ n.value = 5) ∧
     ((¬∃ n ∈ (LockFreeList.newList : LockFreeList.ListState ℕ).nodes,
          n.marked = false ∧ n.value = 5) →
        (LockFreeList.remove (LockFreeList.newList : LockFreeList.ListState ℕ) 5).1 =
          false ∧
        (LockFreeList.contains (LockFreeList.newList : LockFreeList.ListState ℕ) 5).1 =
          false)) := by
  have hyp : LockFreeList.SortedLive (LockFreeList.newList : LockFreeList.ListState ℕ) := by
    simp [LockFreeList.newList, LockFreeList.SortedLive, LockFreeList.liveValues,
      LockFreeList.liveFilter]
  exact ⟨hyp, (claim_C2_ordered_set_returns ℕ 5).2 LockFreeList.newList hyp⟩

/-- Claim C3 (amended): every insert, remove, or contains call that returns
preserves the strictly-increasing order of the live (unmarked) reachable
values, and after every completed operation sequence on a fresh set the live
reachable values are strictly increasing.  (Marked nodes that remain
reachable — a remove at the head position marks without unlinking — are
excluded, as the claim says.)  The universal quantification over sequences
in the original claim fails only because some sequences never complete; see
the counterexample. -/
theorem claim_C3_sorted_invariant :
    (∀ (α : Type) [LinearOrder α] (ops : List (LockFreeList.Op α))
        (s : LockFreeList.ListState α),
        LockFreeList.runOps ops = some s → LockFreeList.SortedLive s) ∧
    (∀ (α : Type) [LinearOrder α] (s : LockFreeList.ListState α) (v : α),
        LockFreeList.SortedLive s →
          (∀ (b' : Bool) (s' : LockFreeList.ListState α),
             LockFreeList.insert s v = some (b', s') → LockFreeList.SortedLive s') ∧
          LockFreeList.SortedLive (LockFreeList.remove s v).2 ∧
          LockFreeList.SortedLive (LockFreeList.contains s v).2) := by
  constructor
  · intro α _ ops s hs
    rw [LockFreeList.runOps] at hs
    refine LockFreeList.runOps_sorted_aux ops LockFreeList.newList ?_ s hs
    simp [LockFreeList.newList, LockFreeList.SortedLive, LockFreeList.liveValues,
      LockFreeList.liveFilter]
  · intro α _ s v hs
    exact ⟨fun b' s' h => LockFreeList.insert_SortedLive s v b' s' h hs,
      LockFreeList.remove_SortedLive s v hs, LockFreeList.contains_SortedLive s v hs⟩

/-- Claim C3, counterexample to the claim as stated: the sequence
insert(3), insert(1) has no after-state at all — the second insert must
link in front of the unmarked head, its linkage CAS on `curr.next` expects
`curr` itself (`prev == curr` from `find`), fails deterministically, and
the call retries forever. -/
theorem claim_C3_counterexample :
    LockFreeList.insert (⟨[⟨3, false, 0⟩], []⟩ : LockFreeList.ListState ℕ) 1 = none ∧
    LockFreeList.runOps [LockFreeList.Op.ins 3, LockFreeList.Op.ins 1] =
      (none : Option (LockFreeList.ListState ℕ)) := by
  constructor
  · decide
  · decide

/-- Claim C3, witness: a completed sequence (insert 5 then remove 5, whose
remove marks the head in place) and the three per-operation preservation
clauses at the fresh sorted state over ℕ. -/
theorem claim_C3_witness :
    LockFreeList.runOps [LockFreeList.Op.ins 5, LockFreeList.Op.rem 5] =
      some (⟨[⟨5, true, 1⟩], []⟩ : LockFreeList.ListState ℕ) ∧
    LockFreeList.SortedLive (⟨[⟨5, true, 1⟩], []⟩ : LockFreeList.ListState ℕ) ∧
    LockFreeList.SortedLive (LockFreeList.newList : LockFreeList.ListState ℕ) ∧
    LockFreeList.insert (LockFreeList.newList : LockFreeList.ListState ℕ) 5 =
      some (true, ⟨[⟨5, false, 0⟩], []⟩) ∧
    LockFreeList.SortedLive (⟨[⟨5, false, 0⟩], []⟩ : LockFreeList.ListState ℕ) ∧
    LockFreeList.SortedLive
      (LockFreeList.remove (LockFreeList.newList : LockFreeList.ListState ℕ) 5).2 ∧
    LockFreeList.SortedLive
      (LockFreeList.contains (LockFreeList.newList : LockFreeList.ListState ℕ) 5).2 := by
  have hnew : LockFreeList.SortedLive (LockFreeList.newList : LockFreeList.ListState ℕ) := by
    simp [LockFreeList.SortedLive, LockFreeList.newList, LockFreeList.liveValues,
      LockFreeList.liveFilter]
  have hrun : LockFreeList.runOps [LockFreeList.Op.ins 5, LockFreeList.Op.rem 5] =
      some (⟨[⟨5, true, 1⟩], []⟩ : LockFreeList.ListState ℕ) := by decide
  have hins : LockFreeList.insert (LockFreeList.newList : LockFreeList.ListState ℕ) 5 =
      some (true, ⟨[⟨5, false, 0⟩], []⟩) := by decide
  have hparts := claim_C3_sorted_invariant.2 ℕ LockFreeList.newList 5 hnew
  exact ⟨hrun, claim_C3_sorted_invariant.1 ℕ _ _ hrun, hnew, hins,
    hparts.1 true _ hins, hparts.2.1, hparts.2.2⟩

/-- Claim C5 (amended): `contains`, via `find`, physically unlinks a marked
head node (removing it from the chain and retiring it), and retires marked
nodes it passes with a stale `prev` without removing them from the
reachable chain; it frees nothing itself, its chain edits only drop marked
nodes (the resulting chain is a sublist of the original), every node it
retires is marked, and the live reachable values are unchanged — so
physical unlinking is not confined to `remove`.  The final conjunct
exhibits the stale case: on the chain of two marked nodes, contains retires
the second node while it is still reachable from head. -/
theorem claim_C5_contains_effect {α : Type} [LinearOrder α]
    (s : LockFreeList.ListState α) (v : α) :
    ((LockFreeList.contains s v).2.nodes).Sublist s.nodes ∧
    LockFreeList.liveValues (LockFreeList.contains s v).2.nodes =
      LockFreeList.liveValues s.nodes ∧
    (∃ r, (LockFreeList.contains s v).2.retired = s.retired ++ r ∧
       ∀ n ∈ r, n.marked = true) ∧
    LockFreeList.contains
        (⟨[⟨1, true, 0⟩, ⟨2, true, 0⟩], []⟩ : LockFreeList.ListState ℕ) 5 =
      (false, ⟨[⟨2, true, 0⟩], [⟨1, true, 0⟩, ⟨2, true, 0⟩]⟩) := by
  refine ⟨?_, ?_, ?_, by decide⟩
  · rw [LockFreeList.contains]
    split
    case h_1 heq =>
      have h5 := (LockFreeList.find_spec v s.nodes).2.2.2.2
      rw [heq, List.append_nil] at h5
      exact h5
    case h_2 c a heq =>
      show ((LockFreeList.find v s.nodes).before ++ c :: a).Sublist s.nodes
      rw [← heq]
      exact (LockFreeList.find_spec v s.nodes).2.2.2.2
  · rw [LockFreeList.contains]
    split
    case h_1 heq =>
      show LockFreeList.liveValues (LockFreeList.find v s.nodes).before =
        LockFreeList.liveValues s.nodes
      have hlv := LockFreeList.find_liveValues v s.nodes
      rw [heq] at hlv
      simp only [LockFreeList.liveValues, LockFreeList.liveFilter, List.filter_nil,
        List.map_nil, List.append_nil] at hlv
      exact hlv.symm
    case h_2 c a heq =>
      show LockFreeList.liveValues ((LockFreeList.find v s.nodes).before ++ c :: a) =
        LockFreeList.liveValues s.nodes
      rw [← heq, LockFreeList.liveValues_append, ← LockFreeList.find_liveValues]
  · rw [LockFreeList.contains]
    split
    case h_1 heq =>
      exact ⟨(LockFreeList.find v s.nodes).retired, rfl,
        (LockFreeList.find_spec v s.nodes).1⟩
    case h_2 c a heq =>
      exact ⟨(LockFreeList.find v s.nodes).retired, rfl,
        (LockFreeList.find_spec v s.nodes).1⟩

/-- Claim C5, counterexample to the claim as stated: on the state whose chain
is the single marked node ⟨5, marked, 0⟩, a `contains(&5)` call changes the
heap — it unlinks the marked node and defers its destruction (the node moves
to the retired list), so `contains` is not read-only and physical unlinking
is not confined to `remove`. -/
theorem claim_C5_counterexample :
    (LockFreeList.contains (⟨[⟨5, true, 0⟩], []⟩ : LockFreeList.ListState ℕ) 5).2 ≠
      (⟨[⟨5, true, 0⟩], []⟩ : LockFreeList.ListState ℕ) ∧
    (LockFreeList.contains
        (⟨[⟨5, true, 0⟩], []⟩ : LockFreeList.ListState ℕ) 5).2.retired =
      [⟨5, true, 0⟩] ∧
    (LockFreeList.contains
        (⟨[⟨5, true, 0⟩], []⟩ : LockFreeList.ListState ℕ) 5).2.nodes = [] := by
  refine ⟨by decide, by decide, by decide⟩

lemma LockFreeHashMap.findInChain_absent {κ ν : Type} [DecidableEq κ] (k : κ)
    (chain : List (κ × ν)) (h : k ∉ chain.map Prod.fst) :
    LockFreeHashMap.findInChain k chain = none := by
  induction chain with
  | nil => rfl
  | cons p rest ih =>
    have hne : p.1 ≠ k := by
      intro hc
      exact h (by simp [hc])
    have hxt : k ∉ rest.map Prod.fst := fun hc => h (by simp [hc])
    simp [LockFreeHashMap.findInChain, hne, ih hxt]

lemma LockFreeHashMap.removeFromChain_absent {κ ν : Type} [DecidableEq κ] (k : κ)
    (chain : List (κ × ν)) (h : k ∉ chain.map Prod.fst) :
    LockFreeHashMap.removeFromChain k chain = (none, chain) := by
  induction chain with
  | nil => rfl
  | cons p rest ih =>
    have hne : p.1 ≠ k := by
      intro hc
      exact h (by simp [hc])
    have hxt : k ∉ rest.map Prod.fst := fun hc => h (by simp [hc])
    simp [LockFreeHashMap.removeFromChain, hne, ih hxt]

lemma LockFreeHashMap.removeFromChain_present {κ ν : Type} [DecidableEq κ] (k : κ)
    (pre post : List (κ × ν)) (v : ν) (h : k ∉ pre.map Prod.fst) :
    LockFreeHashMap.removeFromChain k (pre ++ (k, v) :: post) = (some v, pre ++ post) := by
  induction pre with
  | nil => simp [LockFreeHashMap.removeFromChain]
  | cons p rest ih =>
    have hne : p.1 ≠ k := by
      intro hc
      exact h (by simp [hc])
    have hxt : k ∉ rest.map Prod.fst := fun hc => h (by simp [hc])
    simp [LockFreeHashMap.removeFromChain, hne, ih hxt]

/-- Claim C6: on a fresh map, after insert(k, v₁) then insert(k, v₂), get(&k)
returns v₂ — the head-insert discipline places the newest node first and the
get walk returns the first match from the chain head, so the realized outcome
is the newest binding, consistently for every hash function, key and pair of
values; the older binding is never the answer when the values differ. -/
theorem claim_C6_hash_duplicate (κ ν : Type) [DecidableEq κ] (h : κ → Nat)
    (k : κ) (v₁ v₂ : ν) :
    LockFreeHashMap.get h
        (LockFreeHashMap.insert h
          (LockFreeHashMap.insert h (LockFreeHashMap.empty : LockFreeHashMap.HashMap κ ν)
            k v₁) k v₂) k = some v₂ ∧
    (v₁ ≠ v₂ →
      LockFreeHashMap.get h
          (LockFreeHashMap.insert h
            (LockFreeHashMap.insert h (LockFreeHashMap.empty : LockFreeHashMap.HashMap κ ν)
              k v₁) k v₂) k ≠ some v₁) := by
  have hg : LockFreeHashMap.get h
      (LockFreeHashMap.insert h
        (LockFreeHashMap.insert h (LockFreeHashMap.empty : LockFreeHashMap.HashMap κ ν)
          k v₁) k v₂) k = some v₂ := by
    simp [LockFreeHashMap.get, LockFreeHashMap.insert, LockFreeHashMap.empty,
      LockFreeHashMap.findInChain, Function.update_same]
  refine ⟨hg, fun hne hc => ?_⟩
  rw [hg] at hc
  exact hne (Option.some_inj.mp hc).symm

/-- Claim C6, witness: the duplicate-insert outcome at hash `fun _ => 0`,
key 3, values 1 then 2: get returns 2 and not 1. -/
theorem claim_C6_witness :
    (1 : ℕ) ≠ 2 ∧
    LockFreeHashMap.get (fun _ => 0)
        (LockFreeHashMap.insert (fun _ => 0)
          (LockFreeHashMap.insert (fun _ => 0)
            (LockFreeHashMap.empty : LockFreeHashMap.HashMap ℕ ℕ) 3 1) 3 2) 3 =
      some 2 ∧
    LockFreeHashMap.get (fun _ => 0)
        (LockFreeHashMap.insert (fun _ => 0)
          (LockFreeHashMap.insert (fun _ => 0)
            (LockFreeHashMap.empty : LockFreeHashMap.HashMap ℕ ℕ) 3 1) 3 2) 3 ≠
      some 1 := by
  have happ := claim_C6_hash_duplicate ℕ ℕ (fun _ => 0) 3 1 2
  exact ⟨by decide, happ.1, happ.2 (by decide)⟩

/-- Claim C7: for a key absent from its bucket chain, get and remove return
none and remove leaves the whole map unchanged; for a present key, remove
returns the value of the first matching node from the chain head and splices
exactly that node out, leaving every other bucket untouched. -/
theorem claim_C7_hash_absent_present (κ ν : Type) [DecidableEq κ] (h : κ → Nat)
    (m : LockFreeHashMap.HashMap κ ν) (k : κ) :
    (k ∉ (m.buckets (LockFreeHashMap.bucket_index h k)).map Prod.fst →
       LockFreeHashMap.get h m k = none ∧
       (LockFreeHashMap.remove h m k).1 = none ∧
       (LockFreeHashMap.remove h m k).2 = m) ∧
    (∀ (pre post : List (κ × ν)) (v : ν),
       m.buckets (LockFreeHashMap.bucket_index h k) = pre ++ (k, v) :: post →
       k ∉ pre.map Prod.fst →
       (LockFreeHashMap.remove h m k).1 = some v ∧
       (LockFreeHashMap.remove h m k).2.buckets (LockFreeHashMap.bucket_index h k) =
         pre ++ post ∧
       ∀ j, j ≠ LockFreeHashMap.bucket_index h k →
         (LockFreeHashMap.remove h m k).2.buckets j = m.buckets j) := by
  constructor
  · intro habs
    refine ⟨LockFreeHashMap.findInChain_absent k _ habs, ?_, ?_⟩
    · simp [LockFreeHashMap.remove, LockFreeHashMap.removeFromChain_absent k _ habs]
    · simp [LockFreeHashMap.remove, LockFreeHashMap.removeFromChain_absent k _ habs,
        Function.update_eq_self]
  · intro pre post v hchain hpre
    have hrm := LockFreeHashMap.removeFromChain_present k pre post v hpre
    refine ⟨?_, ?_, ?_⟩
    · simp [LockFreeHashMap.remove, hchain, hrm]
    · simp [LockFreeHashMap.remove, hchain, hrm, Function.update_same]
    · intro j hj
      simp [LockFreeHashMap.remove, Function.update_noteq hj]

/-- Claim C7, witness: on the one-entry map at hash `fun _ => 0`, key 4 is
absent (get/remove return none, map unchanged) and key 3 is present
(remove returns its value and splices out its node). -/
theorem claim_C7_witness :
    ((4 : ℕ) ∉ ((LockFreeHashMap.insert (fun _ => 0)
          (LockFreeHashMap.empty : LockFreeHashMap.HashMap ℕ ℕ) 3 10).buckets
            (LockFreeHashMap.bucket_index (fun _ => 0) 4)).map Prod.fst ∧
     LockFreeHashMap.get (fun _ => 0)
        (LockFreeHashMap.insert (fun _ => 0)
          (LockFreeHashMap.empty : LockFreeHashMap.HashMap ℕ ℕ) 3 10) 4 = none ∧
     (LockFreeHashMap.remove (fun _ => 0)
        (LockFreeHashMap.insert (fun _ => 0)
          (LockFreeHashMap.empty : LockFreeHashMap.HashMap ℕ ℕ) 3 10) 4).1 = none ∧
     (LockFreeHashMap.remove (fun _ => 0)
        (LockFreeHashMap.insert (fun _ => 0)
          (LockFreeHashMap.empty : LockFreeHashMap.HashMap ℕ ℕ) 3 10) 4).2 =
       LockFreeHashMap.insert (fun _ => 0)
         (LockFreeHashMap.empty : LockFreeHashMap.HashMap ℕ ℕ) 3 10) ∧
    ((LockFreeHashMap.insert (fun _ => 0)
        (LockFreeHashMap.empty : LockFreeHashMap.HashMap ℕ ℕ) 3 10).buckets
          (LockFreeHashMap.bucket_index (fun _ => 0) 3) = [] ++ (3, 10) :: [] ∧
     (3 : ℕ) ∉ ([] : List (ℕ × ℕ)).map Prod.fst ∧
     ((LockFreeHashMap.remove (fun _ => 0)
         (LockFreeHashMap.insert (fun _ => 0)
           (LockFreeHashMap.empty : LockFreeHashMap.HashMap ℕ ℕ) 3 10) 3).1 = some 10 ∧
      (LockFreeHashMap.remove (fun _ => 0)
         (LockFreeHashMap.insert (fun _ => 0)
           (LockFreeHashMap.empty : LockFreeHashMap.HashMap ℕ ℕ) 3 10) 3).2.buckets
             (LockFreeHashMap.bucket_index (fun _ => 0) 3) = [] ++ [] ∧
      ∀ j, j ≠ LockFreeHashMap.bucket_index (fun _ => 0) (3 : ℕ) →
        (LockFreeHashMap.remove (fun _ => 0)
           (LockFreeHashMap.insert (fun _ => 0)
             (LockFreeHashMap.empty : LockFreeHashMap.HashMap ℕ ℕ) 3 10) 3).2.buckets j =
          (LockFreeHashMap.insert (fun _ => 0)
            (LockFreeHashMap.empty : LockFreeHashMap.HashMap ℕ ℕ) 3 10).buckets j)) := by
  have habs : (4 : ℕ) ∉ ((LockFreeHashMap.insert (fun _ => 0)
      (LockFreeHashMap.empty : LockFreeHashMap.HashMap ℕ ℕ) 3 10).buckets
        (LockFreeHashMap.bucket_index (fun _ => 0) 4)).map Prod.fst := by
    simp [LockFreeHashMap.insert, LockFreeHashMap.empty, LockFreeHashMap.bucket_index,
      Function.update_same]
  have hch : (LockFreeHashMap.insert (fun _ => 0)
      (LockFreeHashMap.empty : LockFreeHashMap.HashMap ℕ ℕ) 3 10).buckets
        (LockFreeHashMap.bucket_index (fun _ => 0) 3) = [] ++ (3, 10) :: [] := by
    simp [LockFreeHashMap.insert, LockFreeHashMap.empty, Function.update_same]
  have hpre : (3 : ℕ) ∉ ([] : List (ℕ × ℕ)).map Prod.fst := by simp
  exact ⟨⟨habs, (claim_C7_hash_absent_present ℕ ℕ (fun _ => 0)
      (LockFreeHashMap.insert (fun _ => 0)
        (LockFreeHashMap.empty : LockFreeHashMap.HashMap ℕ ℕ) 3 10) 4).1 habs⟩,
    ⟨hch, hpre, (claim_C7_hash_absent_present ℕ ℕ (fun _ => 0)
      (LockFreeHashMap.insert (fun _ => 0)
        (LockFreeHashMap.empty : LockFreeHashMap.HashMap ℕ ℕ) 3 10) 3).2 [] [] 10 hch hpre⟩⟩

/-- Claim C10: after insert(k, v₁) then insert(k, v₂) on a fresh map, the
bucket chain holds both nodes for k (the newest nearest the head);
remove(&k) returns the most recent binding v₂ and removes only that node,
after which get(&k) returns the previously shadowed v₁. -/
theorem claim_C10_shadow_resurface (κ ν : Type) [DecidableEq κ] (h : κ → Nat)
    (k : κ) (v₁ v₂ : ν) (_hne : v₁ ≠ v₂) :
    (LockFreeHashMap.insert h
        (LockFreeHashMap.insert h (LockFreeHashMap.empty : LockFreeHashMap.HashMap κ ν)
          k v₁) k v₂).buckets (LockFreeHashMap.bucket_index h k) =
      [(k, v₂), (k, v₁)] ∧
    (LockFreeHashMap.remove h
        (LockFreeHashMap.insert h
          (LockFreeHashMap.insert h (LockFreeHashMap.empty : LockFreeHashMap.HashMap κ ν)
            k v₁) k v₂) k).1 = some v₂ ∧
    (LockFreeHashMap.remove h
        (LockFreeHashMap.insert h
          (LockFreeHashMap.insert h (LockFreeHashMap.empty : LockFreeHashMap.HashMap κ ν)
            k v₁) k v₂) k).2.buckets (LockFreeHashMap.bucket_index h k) = [(k, v₁)] ∧
    LockFreeHashMap.get h
        (LockFreeHashMap.remove h
          (LockFreeHashMap.insert h
            (LockFreeHashMap.insert h
              (LockFreeHashMap.empty : LockFreeHashMap.HashMap κ ν) k v₁) k v₂) k).2 k =
      some v₁ := by
  refine ⟨?_, ?_, ?_, ?_⟩ <;>
    simp [LockFreeHashMap.get, LockFreeHashMap.insert, LockFreeHashMap.remove,
      LockFreeHashMap.empty, LockFreeHashMap.findInChain, LockFreeHashMap.removeFromChain,
      Function.update_same]

/-- Claim C10, witness: the theorem at hash `fun _ => 0`, key 3, values 10
then 20. -/
theorem claim_C10_witness :
    (10 : ℕ) ≠ 20 ∧
    ((LockFreeHashMap.insert (fun _ => 0)
        (LockFreeHashMap.insert (fun _ => 0)
          (LockFreeHashMap.empty : LockFreeHashMap.HashMap ℕ ℕ) 3 10) 3 20).buckets
          (LockFreeHashMap.bucket_index (fun _ => 0) 3) = [(3, 20), (3, 10)] ∧
     (LockFreeHashMap.remove (fun _ => 0)
        (LockFreeHashMap.insert (fun _ => 0)
          (LockFreeHashMap.insert (fun _ => 0)
            (LockFreeHashMap.empty : LockFreeHashMap.HashMap ℕ ℕ) 3 10) 3 20) 3).1 =
       some 20 ∧
     (LockFreeHashMap.remove (fun _ => 0)
        (LockFreeHashMap.insert (fun _ => 0)
          (LockFreeHashMap.insert (fun _ => 0)
            (LockFreeHashMap.empty : LockFreeHashMap.HashMap ℕ ℕ) 3 10) 3 20) 3).2.buckets
          (LockFreeHashMap.bucket_index (fun _ => 0) 3) = [(3, 10)] ∧
     LockFreeHashMap.get (fun _ => 0)
        (LockFreeHashMap.remove (fun _ => 0)
          (LockFreeHashMap.insert (fun _ => 0)
            (LockFreeHashMap.insert (fun _ => 0)
              (LockFreeHashMap.empty : LockFreeHashMap.HashMap ℕ ℕ) 3 10) 3 20) 3).2 3 =
       some 10) :=
  ⟨by decide, claim_C10_shadow_resurface ℕ ℕ (fun _ => 0) 3 10 20 (by decide)⟩

/-- Claim C8: on an MCS lock with null tail and a fresh node (null next,
locked flag as initialized), lock(n) swaps the tail to the node and returns
at once (the `some` result is the no-spin path: the observed predecessor is
null) leaving the node heap untouched; a following unlock(n), with the
node's next still null, succeeds in the tail CAS from the node back to null,
restoring the free state with no other field of the lock or heap modified. -/
theorem claim_C8_mcs_uncontended (s : MCSLock.MCSState) (nid : Nat)
    (h1 : s.tail = none) (h2 : s.nodes nid = MCSLock.MCSNode.new) :
    MCSLock.lock s nid = some ⟨some nid, s.nodes⟩ ∧
    MCSLock.unlock (⟨some nid, s.nodes⟩ : MCSLock.MCSState) nid =
      some ⟨none, s.nodes⟩ := by
  have hval : (⟨none, (s.nodes nid).locked⟩ : MCSLock.MCSNode) = s.nodes nid := by
    rw [h2]
    rfl
  have hupd : Function.update s.nodes nid ⟨none, (s.nodes nid).locked⟩ = s.nodes := by
    rw [hval, Function.update_eq_self]
  constructor
  · rw [MCSLock.lock, h1, hupd]
  · rw [MCSLock.unlock]
    simp [h2, MCSLock.MCSNode.new]

/-- Claim C8, witness: the round trip on the all-fresh heap with node 0. -/
theorem claim_C8_witness :
    (⟨none, fun _ => MCSLock.MCSNode.new⟩ : MCSLock.MCSState).tail = none ∧
    (⟨none, fun _ => MCSLock.MCSNode.new⟩ : MCSLock.MCSState).nodes 0 =
      MCSLock.MCSNode.new ∧
    MCSLock.lock (⟨none, fun _ => MCSLock.MCSNode.new⟩ : MCSLock.MCSState) 0 =
      some ⟨some 0, fun _ => MCSLock.MCSNode.new⟩ ∧
    MCSLock.unlock (⟨some 0, fun _ => MCSLock.MCSNode.new⟩ : MCSLock.MCSState) 0 =
      some ⟨none, fun _ => MCSLock.MCSNode.new⟩ := by
  have happ := claim_C8_mcs_uncontended
    (⟨none, fun _ => MCSLock.MCSNode.new⟩ : MCSLock.MCSState) 0 rfl rfl
  exact ⟨rfl, rfl, happ.1, happ.2⟩

end Seize
